import Mathlib

/-!
Shallow embedding of `go2proto.go` (package `main` of beam-cloud/go2proto).

The program walks type-checked Go packages, collects `@go2proto`-annotated
declarations, and builds an in-memory model: `message` values from struct
declarations and `enumDef` values from named basic types that have
explicitly-typed constants.  This file embeds the pure core of that
program — `gatherConstValues`, `appendMessage`, `isRepeated`,
`toProtoFieldName`, `toProtoFieldTypeName`, `splitNameHelper`,
`normalizeType`, `collectEnumMap` and the main loop of
`getProtobufTypes` — as executable Lean definitions, and proves the
behavioural properties stated about them.

Go strings are modelled by Lean `String` (a list of Unicode code points);
Go's byte-wise operations (`len`, `<`) are modelled by the corresponding
UTF-8-faithful operations (`String.utf8ByteSize`, code-point-lexicographic
comparison, which agrees with Go's byte-wise comparison on valid UTF-8).
Go maps used only through key lookup are modelled by association lists
whose `insert` prepends, giving the same overwrite-on-lookup semantics.
-/

namespace Go2Proto

/-! Section: String helpers (models of the `strings` / `unicode` library calls) -/

/-- Model of Go `strings.Split(s, sep)` for a one-character separator,
working on the character list of the string.  `Split` always returns at
least one (possibly empty) part. -/
def splitOnChar (sep : Char) : List Char → List (List Char)
  | [] => [[]]
  | c :: cs =>
    if c = sep then [] :: splitOnChar sep cs
    else
      match splitOnChar sep cs with
      | [] => [[c]]
      | p :: ps => (c :: p) :: ps

/-- Last element of a list of parts, defaulting to the empty part; models
`parts[len(parts)-1]` (the part list is never empty). -/
def lastD : List (List Char) → List Char
  | [] => []
  | [p] => p
  | _ :: p :: ps => lastD (p :: ps)

/-- Model of Go `strings.TrimPrefix(s, p)`: drop `p` when it is a prefix,
otherwise return the list unchanged. -/
def trimPfx (p l : List Char) : List Char :=
  if p.isPrefixOf l then l.drop p.length else l

/-- Model of Go `strings.TrimLeft(s, "[]")`: drop leading characters that
belong to the cutset `[` `]`. -/
def trimLeftBrackets (l : List Char) : List Char :=
  l.dropWhile (fun c => c == '[' || c == ']')

/-- Model of Go `unicode.ToLower`, restricted to the Latin-1 block (ASCII
letters and `À`..`Þ` except `×`), where the full Unicode case table is
exactly this fixed shift by 32.  Every identifier appearing in this
development lies in that range. -/
def goToLower (c : Char) : Char :=
  if 'A' ≤ c ∧ c ≤ 'Z' then Char.ofNat (c.toNat + 32)
  else if 'À' ≤ c ∧ c ≤ 'Þ' ∧ c ≠ '×' then Char.ofNat (c.toNat + 32)
  else c

/-- Model of Go `strings.ToLower`. -/
def lowerStr (s : String) : String := String.mk (s.data.map goToLower)

/-- Contiguous-sublist test on character lists, used to model
`strings.Contains`. -/
def listContainsSub (sub : List Char) : List Char → Bool
  | [] => sub.isPrefixOf ([] : List Char)
  | c :: cs => sub.isPrefixOf (c :: cs) || listContainsSub sub cs

/-- Model of Go `strings.Contains(s, sub)`. -/
def containsSub (s sub : String) : Bool := listContainsSub sub.data s.data

/-- Byte-wise lexicographic comparison of Go strings, expressed on code
points (UTF-8 encoding preserves code-point order, so the two coincide).
Models the `<` used in the `sort.Slice` comparators. -/
def charListLt : List Char → List Char → Bool
  | [], [] => false
  | [], _ :: _ => true
  | _ :: _, [] => false
  | a :: as, b :: bs => if a < b then true else if b < a then false else charListLt as bs

/-- Go string `<`. -/
def strLtGo (a b : String) : Bool := charListLt a.data b.data

/-! Section: Data structures (`message`, `field`, `enumDef` from the source) -/

/-- The `field` struct of the source: `Name`, `TypeName`, `Order`,
`IsRepeated`.  (`Order` is a Go `int` that is always an array index plus
one, so `Nat` is a faithful carrier.) -/
structure field where
  Name : String
  TypeName : String
  Order : Nat
  IsRepeated : Bool
deriving DecidableEq, Repr

/-- The `message` struct of the source. -/
structure message where
  Name : String
  Fields : List field
deriving DecidableEq, Repr

/-- The `enumDef` struct of the source: an enum name plus all of its variants. -/
structure enumDef where
  Name : String
  Values : List String
deriving DecidableEq, Repr

/-- The map from fully-qualified type name to `*enumDef` (`enumMap` /
`globalEnumMap` in the source), as an association list read through
`List.lookup` (first hit wins, so prepending an entry models Go map
assignment). -/
abbrev EnumMap : Type := List (String × enumDef)

/-! Section: Go types as seen by the program

The source inspects a field's type `t` only through `t.String()` (its
fully-qualified textual form) and a one-level type switch on
`t.Underlying()` (basic / slice / pointer / struct / other), plus
`under.String()` in the basic case.  `GoType` records exactly that view;
the `slice` and `ptr` constructors additionally carry the element type so
that specification statements can refer to it (the embedded code itself
never looks at it, exactly like the source). -/

inductive UnderTy (τ : Type) where
  | basic (name : String)
  | slice (elem : τ)
  | ptr (elem : τ)
  | strct
  | otherTy

/-- A Go type: its `String()` form together with the underlying view. -/
inductive GoType where
  | mk (str : String) (und : UnderTy GoType)

/-- Projection for `t.String()`. -/
def GoType.str : GoType → String
  | .mk s _ => s

/-- Projection for `t.Underlying()`, one level deep. -/
def GoType.und : GoType → UnderTy GoType
  | .mk _ u => u

/-! Section: Field classification (`isRepeated`, `toProtoFieldName`,
`splitNameHelper`, `normalizeType`, `toProtoFieldTypeName`) -/

/-- Model of `isRepeated`: true iff the field type's underlying representation is a
slice (`_, ok := f.Type().Underlying().(*types.Slice)`). -/
def isRepeated (t : GoType) : Bool :=
  match t.und with
  | .slice _ => true
  | _ => false

/-- Model of `toProtoFieldName`: when the name is exactly two bytes long
(`len(name) == 2`), lowercase the whole name; otherwise lowercase only the
first rune.  The empty-string case mirrors
`utf8.DecodeRuneInString("")`, which yields the replacement rune
`U+FFFD` with width 0. -/
def toProtoFieldName (name : String) : String :=
  if name.utf8ByteSize = 2 then lowerStr name
  else
    match name.data with
    | [] => String.mk [Char.ofNat 0xFFFD]
    | c :: cs => String.mk (goToLower c :: cs)

/-- Model of `splitNameHelper`: the last `.`-separated component of the type's
`String()` form, with a leading `*` and then a leading `[]` trimmed. -/
def splitNameHelper (t : GoType) : String :=
  String.mk (trimPfx "[]".data (trimPfx "*".data (lastD (splitOnChar '.' t.str.data))))

/-- Model of `normalizeType`: the fixed scalar-name conversions of the source
(`int` to `int64`, `float32` to `float`, `float64` to `double`, `string`
to `string`, everything else unchanged). -/
def normalizeType (name : String) : String :=
  if name = "int" then "int64"
  else if name = "float32" then "float"
  else if name = "float64" then "double"
  else if name = "string" then "string"
  else name

/-- Model of `toProtoFieldTypeName`: first consult the enum map under the type's
fully-qualified `String()` form (`globalEnumMap[fullyQualified]`) and, on
a hit, return the enum's short name; otherwise dispatch on the underlying
representation exactly as the source's type switch does. -/
def toProtoFieldTypeName (g : EnumMap) (t : GoType) : String :=
  match List.lookup t.str g with
  | some ed => ed.Name
  | none =>
    match t.und with
    | .basic n => normalizeType n
    | .slice _ => normalizeType (String.mk (trimLeftBrackets (splitNameHelper t).data))
    | .ptr _ => normalizeType (splitNameHelper t)
    | .strct => normalizeType (splitNameHelper t)
    | .otherTy => t.str

/-! Section: Building messages (`appendMessage`) -/

/-- One field of a struct declaration as the builder sees it: source name,
exportedness (`f.Exported()`), and type. -/
structure StructField where
  name : String
  exported : Bool
  ty : GoType

/-- The loop body of `appendMessage`: walk the struct's fields with their
0-based index `i`, skip non-exported fields, and give each kept field
`Order = i + 1`.  `g` is the state of `globalEnumMap` at the moment the
field is mapped. -/
def buildFields (g : EnumMap) : List StructField → Nat → List field
  | [], _ => []
  | f :: fs, i =>
    if f.exported then
      { Name := toProtoFieldName f.name
        TypeName := toProtoFieldTypeName g f.ty
        IsRepeated := isRepeated f.ty
        Order := i + 1 } :: buildFields g fs (i + 1)
    else buildFields g fs (i + 1)

/-- Model of `appendMessage`: a message named after the declaration, with the
fields produced by the loop above. -/
def appendMessage (g : EnumMap) (defName : String) (s : List StructField) : message :=
  { Name := defName, Fields := buildFields g s 0 }

/-! Section: Constant gathering (`gatherConstValues`)

The source walks the AST of every file: for each `const` declaration
group, for each value spec (one line of the group), it reads the explicit
type — an identifier or nothing — and, when an identifier is present,
appends every declared name of that line to the map entry for that type
name.  Initializer expressions are carried in the model (they are part of
the AST) but, exactly like the source, never read. -/

/-- The explicit type expression of a const line (`vspec.Type`):
an `*ast.Ident` or some other expression shape. -/
inductive TypeExpr where
  | ident (name : String)
  | otherExpr

/-- An initializer expression of a const line, as far as the claims need
it: a text (string) literal with its unquoted value, or anything else. -/
inductive ConstInit where
  | strLit (value : String)
  | otherInit

/-- One `*ast.ValueSpec` inside a `const` group: the optional explicit
type, the declared names, and the initializer expressions. -/
structure ValueSpec where
  typ : Option TypeExpr
  names : List String
  inits : List ConstInit

/-- One `*ast.GenDecl`: whether its token is `const`, and its specs.
(Declarations that are not `*ast.GenDecl` are skipped by the source and
therefore omitted from the model; every spec of a `const` group is a
`*ast.ValueSpec`.) -/
structure GenDecl where
  isConst : Bool
  specs : List ValueSpec

/-- One parsed file (`*ast.File`), reduced to its declaration list. -/
structure GoFile where
  decls : List GenDecl

/-- Append `v` to the entry of `k` in a `map[string][]string`, creating
the entry when absent (Go `result[typeName] = append(result[typeName], ...)`).
The map is read only through `List.lookup`, so the entry order is
irrelevant. -/
def mapAppend : List (String × List String) → String → String → List (String × List String)
  | [], k, v => [(k, [v])]
  | (k2, vs) :: rest, k, v =>
    if k2 = k then (k2, vs ++ [v]) :: rest else (k2, vs) :: mapAppend rest k v

/-- The `typeName` computed for one value spec: the identifier's name when
the explicit type is an identifier, the empty string otherwise. -/
def specTypeName (v : ValueSpec) : String :=
  match v.typ with
  | some (.ident n) => n
  | _ => ""

/-- Inner loop of `gatherConstValues` over the names of one value spec:
each name is recorded under the spec's type name exactly when that type
name is non-empty (untyped lines and non-identifier types record
nothing). -/
def addSpecNames (m : List (String × List String)) (v : ValueSpec) :
    List (String × List String) :=
  v.names.foldl (fun m nm => if specTypeName v ≠ "" then mapAppend m (specTypeName v) nm else m) m

/-- Model of `gatherConstValues`: scan every file's `const` groups in order,
building the type-name-to-values map. -/
def gatherConstValues (files : List GoFile) : List (String × List String) :=
  files.foldl
    (fun m f =>
      f.decls.foldl (fun m d => if d.isConst then d.specs.foldl addSpecNames m else m) m)
    []

/-! Section: The main collection loop (`getProtobufTypes`, `collectEnumMap`)

A named definition (`types.Object` in `p.TypesInfo.Defs`) is reduced to
the data the loop reads: its name, its type's `String()` form, the result
of the `hasGo2ProtoComment` gate (an AST/file-system query abstracted here
as the boolean it produces), and the one-level type switch on
`def.Type().Underlying()` together with, in the basic case, whether
`def.Type()` is a `*types.Named` and the name of that named object. -/

/-- Underlying view of a definition, as the loop's type switch sees it. -/
inductive DefUnder where
  | strct (fields : List StructField)
  | basic (namedName : Option String)
  | otherUnder

/-- One named definition. -/
structure Def where
  name : String
  typeStr : String
  hasMarker : Bool
  und : DefUnder

/-- One loaded package: its parsed files and its definitions (the latter
in some iteration order of `p.TypesInfo.Defs`). -/
structure GoPkg where
  files : List GoFile
  defs : List Def

/-- Whether a definition is a struct declaration (used only in
specification statements). -/
def Def.isStruct (d : Def) : Bool :=
  match d.und with
  | .strct _ => true
  | _ => false

/-- The two `continue` gates at the top of the loop: the `@go2proto`
marker and the optional case-insensitive substring filter
(`filter != "" && !strings.Contains(strings.ToLower(def.Name()), filter)`;
the filter is lowercased once by the caller). -/
def passesGate (flt : String) (d : Def) : Bool :=
  d.hasMarker && (flt == "" || containsSub (lowerStr d.name) flt)

/-- The loop of `getProtobufTypes` over one package's definitions.
`g` is the state of `globalEnumMap` for the whole run: the source updates
`globalEnumMap` only once, in `collectEnumMap` *after* this loop, so every
`appendMessage` call reads the map as it was when the run started.
`cm` is the package's `gatherConstValues` result; `ms`, `es`, `loc`
accumulate `messages`, `enums` and the run-local `enumMap`. -/
def processDefs (g : EnumMap) (cm : List (String × List String)) (flt : String) :
    List Def → List message → List enumDef → EnumMap →
    List message × List enumDef × EnumMap
  | [], ms, es, loc => (ms, es, loc)
  | d :: ds, ms, es, loc =>
    if passesGate flt d then
      match d.und with
      | .strct fs => processDefs g cm flt ds (ms ++ [appendMessage g d.name fs]) es loc
      | .basic none => processDefs g cm flt ds ms es loc
      | .basic (some nn) =>
        if (List.lookup d.name cm).getD [] = [] then processDefs g cm flt ds ms es loc
        else
          processDefs g cm flt ds ms
            (es ++ [⟨nn, (List.lookup d.name cm).getD []⟩])
            ((d.typeStr, ⟨nn, (List.lookup d.name cm).getD []⟩) :: loc)
      | .otherUnder => processDefs g cm flt ds ms es loc
    else processDefs g cm flt ds ms es loc

/-- The outer loop over all packages: each package contributes its
constants map and then its definitions. -/
def processPkgs (g : EnumMap) (flt : String) :
    List GoPkg → List message → List enumDef → EnumMap →
    List message × List enumDef × EnumMap
  | [], ms, es, loc => (ms, es, loc)
  | p :: ps, ms, es, loc =>
    let r := processDefs g (gatherConstValues p.files) flt p.defs ms es loc
    processPkgs g flt ps r.1 r.2.1 r.2.2

/-- Insertion step of the final `sort.Slice` (ascending by the given
strict order; elements comparing equal keep no particular order in Go's
unstable sort — this model realizes one such order). -/
def insertLe (lt : α → α → Bool) (x : α) : List α → List α
  | [] => [x]
  | y :: ys => if lt x y then x :: y :: ys else y :: insertLe lt x ys

/-- The final ascending sort of messages and enums. -/
def sortLt (lt : α → α → Bool) : List α → List α
  | [] => []
  | x :: xs => insertLe lt x (sortLt lt xs)

/-- Result of one run of `getProtobufTypes`: the sorted messages and
enums it returns, plus the state of `globalEnumMap` after the final
`collectEnumMap` call. -/
structure RunOut where
  messages : List message
  enums : List enumDef
  globalMap : EnumMap
deriving DecidableEq

/-- Model of `getProtobufTypes`: run the collection loop over all packages, sort
messages and enums by name, and merge the run-local `enumMap` into
`globalEnumMap` (`collectEnumMap`; prepending the local entries gives the
same lookup semantics as Go's per-key overwrite).  `g` is the state of
`globalEnumMap` when the run starts — the empty map at process start. -/
def getProtobufTypes (g : EnumMap) (pkgs : List GoPkg) (flt : String) : RunOut :=
  let r := processPkgs g flt pkgs [] [] []
  { messages := sortLt (fun a b => strLtGo a.Name b.Name) r.1
    enums := sortLt (fun a b => strLtGo a.Name b.Name) r.2.1
    globalMap := r.2.2 ++ g }

/-- A concrete loaded package used in several concrete evaluations: one
file with the constant group

    const (
      Active   Status = "active"
      Inactive Status = "inactive"
    )

plus two annotated declarations, `type Status string` and
`type Msg struct { State Status }`, both carrying the marker. -/
def statusPkg : GoPkg :=
  ⟨[⟨[⟨true, [⟨some (.ident "Status"), ["Active"], [.strLit "active"]⟩,
              ⟨some (.ident "Status"), ["Inactive"], [.strLit "inactive"]⟩]⟩]⟩],
   [⟨"Status", "pkg.Status", true, .basic (some "Status")⟩,
    ⟨"Msg", "pkg.Msg", true, .strct [⟨"State", true, .mk "pkg.Status" (.basic "string")⟩]⟩]⟩

/-! Section: helper lemmas about the field-building loop -/

/-- Orders produced by the field loop started at index `i`: the 1-based
positions, within the full field list, of the exported fields. -/
theorem buildFields_map_order (g : EnumMap) :
    ∀ (fs : List StructField) (i : Nat),
      (buildFields g fs i).map field.Order
        = ((List.enumFrom i fs).filter (fun p => p.2.exported)).map (fun p => p.1 + 1)
  | [], _ => rfl
  | f :: fs, i => by
    cases h : f.exported <;>
      simp [buildFields, List.enumFrom, List.filter, h, buildFields_map_order g fs (i + 1)]

/-- Names produced by the field loop: the normalized names of exactly the
exported fields, in order. -/
theorem buildFields_map_name (g : EnumMap) :
    ∀ (fs : List StructField) (i : Nat),
      (buildFields g fs i).map field.Name
        = (fs.filter (fun f => f.exported)).map (fun f => toProtoFieldName f.name)
  | [], _ => rfl
  | f :: fs, i => by
    cases h : f.exported <;>
      simp [buildFields, List.filter, h, buildFields_map_name g fs (i + 1)]

/-! Section: claims C1, C2, C3, C5, C10 -/

/-- C1, counterexample.  The claim says a field whose type is registered
in the enum map gets `TypeName` `"string"`; the code instead returns the
registry entry's enum name.  Concretely: with `type Status string`
registered (entry `pkg.Status` with values `Active`, `Inactive`), a field
of type `pkg.Status` is mapped to `"Status"`, not `"string"`. -/
theorem C1_counterexample :
    toProtoFieldTypeName [("pkg.Status", ⟨"Status", ["Active", "Inactive"]⟩)]
        (.mk "pkg.Status" (.basic "string")) = "Status" ∧
      ("Status" : String) ≠ "string" := by decide

/-- C1, amended.  When the field type's fully-qualified name has an entry
in the enum map consulted by `toProtoFieldTypeName`, the mapped type name
is that entry's `Name` (the enum's bare name); the `field` record of the
source has no `EnumValues` component at all. -/
theorem C1_amended_enum_name (g : EnumMap) (t : GoType) (ed : enumDef)
    (h : List.lookup t.str g = some ed) :
    toProtoFieldTypeName g t = ed.Name := by
  simp [toProtoFieldTypeName, h]

/-- C1, witness for the amended theorem at the registered type
`pkg.Status`. -/
theorem C1_witness :
    toProtoFieldTypeName [("pkg.Status", ⟨"Status", ["Active", "Inactive"]⟩)]
        (.mk "pkg.Status" (.basic "string"))
      = (enumDef.mk "Status" ["Active", "Inactive"]).Name :=
  C1_amended_enum_name _ _ _ (by decide)

/-- C2, counterexample.  The claim says `Order` is the 1-based rank among
exported fields only.  For a struct whose first field is non-exported and
whose second field is exported, the code gives the single produced field
`Order = 2`, not `1`: the non-exported field consumed a slot. -/
theorem C2_counterexample :
    ((appendMessage [] "M"
        [⟨"id", false, .mk "string" (.basic "string")⟩,
         ⟨"Name", true, .mk "string" (.basic "string")⟩]).Fields.map field.Order = [2]) ∧
      (2 : Nat) ≠ 1 := by decide

/-- C2, amended.  The `Order` of each produced field is its 1-based
position in the struct's full declaration order, counting non-exported
fields as well: the orders are exactly `index + 1` for the positions of
the exported fields, so they are strictly increasing but skip a slot for
every non-exported field. -/
theorem C2_amended_order (g : EnumMap) (nm : String) (fs : List StructField) :
    (appendMessage g nm fs).Fields.map field.Order
      = (fs.enum.filter (fun p => p.2.exported)).map (fun p => p.1 + 1) := by
  simp [appendMessage, List.enum, buildFields_map_order]

/-- C3, code bug.  Evaluation of `gatherConstValues` at the failing
input: a `const` group of two members with explicit type `Status` and
text-literal initializers `"active"` and `"inactive"`.  The code records
the member identifier names `Active`, `Inactive`; the claim (and the
function's own doc comment) say the recorded values are the unquoted
literals `active`, `inactive`. -/
theorem C3_code_eval :
    List.lookup "Status"
        (gatherConstValues
          [⟨[⟨true, [⟨some (.ident "Status"), ["Active"], [.strLit "active"]⟩,
                     ⟨some (.ident "Status"), ["Inactive"], [.strLit "inactive"]⟩]⟩]⟩])
      = some ["Active", "Inactive"] := by decide

/-- C5, counterexample.  The claim says the generic unsigned-integer kind
maps to the 32-bit unsigned type name; `normalizeType` has no such case
and passes `"uint"` through unchanged. -/
theorem C5_counterexample :
    normalizeType "uint" = "uint" ∧ ("uint" : String) ≠ "uint32" := by decide

/-- C5, amended.  `normalizeType` maps the generic signed-integer kind to
the 64-bit signed type name, single-precision float to `"float"`,
double-precision float to `"double"`, text to itself, and every other
scalar kind's name — including the generic unsigned-integer kind — passes
through unchanged. -/
theorem C5_amended_normalize :
    normalizeType "int" = "int64" ∧ normalizeType "float32" = "float" ∧
    normalizeType "float64" = "double" ∧ normalizeType "string" = "string" ∧
    ∀ n : String, n ∉ (["int", "float32", "float64"] : List String) → normalizeType n = n := by
  refine ⟨by decide, by decide, by decide, by decide, ?_⟩
  intro n hn
  simp only [List.mem_cons, List.not_mem_nil, or_false, not_or] at hn
  obtain ⟨h1, h2, h3⟩ := hn
  simp only [normalizeType, h1, h2, h3, if_false]
  split <;> simp_all

/-- C5, witness for the amended theorem: the pass-through clause applied
at the unsigned-integer kind. -/
theorem C5_witness : normalizeType "uint" = "uint" :=
  C5_amended_normalize.2.2.2.2 "uint" (by decide)

/-- C10, counterexample.  The claim's special case is stated for names of
exactly two characters; the code tests for exactly two bytes
(`len(name) == 2`).  The exported name `ÉX` has two characters but three
UTF-8 bytes, so only its first rune is lowercased: the result is `éX`,
not the fully lowercased `éx` the claim predicts. -/
theorem C10_counterexample :
    ("ÉX" : String).length = 2 ∧ toProtoFieldName "ÉX" = "éX" ∧
      ("éX" : String) ≠ "éx" := by decide

/-- C10, amended.  Field-name normalization lowercases only the first
rune, except that a name whose UTF-8 encoding is exactly two bytes long
is lowercased in full; every field name of every produced message is the
image under `toProtoFieldName` of an exported field's source name, in
declaration order. -/
theorem C10_amended_image (g : EnumMap) (nm : String) (fs : List StructField) :
    (appendMessage g nm fs).Fields.map field.Name
      = (fs.filter (fun f => f.exported)).map (fun f => toProtoFieldName f.name) := by
  simp [appendMessage, buildFields_map_name]

/-! Section: helper lemmas about name splitting and trimming -/

/-- Splitting always yields at least one part. -/
theorem splitOnChar_ne_nil (sep : Char) : ∀ l : List Char, splitOnChar sep l ≠ []
  | [] => by simp [splitOnChar]
  | c :: cs => by
    simp only [splitOnChar]
    split
    · simp
    · split <;> simp

/-- The separator never occurs in the last part of a split. -/
theorem not_mem_lastD_splitOnChar (sep : Char) : ∀ l : List Char, sep ∉ lastD (splitOnChar sep l)
  | [] => by simp [splitOnChar, lastD]
  | c :: cs => by
    have ih := not_mem_lastD_splitOnChar sep cs
    have hne := splitOnChar_ne_nil sep cs
    simp only [splitOnChar]
    by_cases h : c = sep
    · rw [if_pos h]
      cases hrest : splitOnChar sep cs with
      | nil => exact absurd hrest hne
      | cons p ps =>
        rw [hrest] at ih
        simpa [lastD] using ih
    · rw [if_neg h]
      cases hrest : splitOnChar sep cs with
      | nil => exact absurd hrest hne
      | cons p ps =>
        rw [hrest] at ih
        cases ps with
        | nil =>
          simp only [lastD] at ih ⊢
          simp only [List.mem_cons, not_or]
          exact ⟨fun hc => h hc.symm, ih⟩
        | cons q qs => simpa [lastD] using ih

/-- A list free of the separator splits into itself alone. -/
theorem splitOnChar_eq_single (sep : Char) :
    ∀ l : List Char, sep ∉ l → splitOnChar sep l = [l]
  | [], _ => rfl
  | c :: cs, h => by
    have hc : ¬ c = sep := fun e => h (by simp [e])
    have ih := splitOnChar_eq_single sep cs (fun hm => h (List.mem_cons_of_mem _ hm))
    simp [splitOnChar, hc, ih]

/-- Trimming a prefix cannot introduce a character. -/
theorem not_mem_trimPfx (c : Char) (p l : List Char) (h : c ∉ l) : c ∉ trimPfx p l := by
  unfold trimPfx
  split
  · exact fun hm => h (List.drop_subset _ _ hm)
  · exact h

/-- The name extracted by `splitNameHelper` never contains a dot: it is
the last path component of the type's textual form. -/
theorem dot_not_mem_splitNameHelper (t : GoType) : '.' ∉ (splitNameHelper t).data := by
  show '.' ∉ trimPfx _ _
  exact not_mem_trimPfx _ _ _ (not_mem_trimPfx _ _ _ (not_mem_lastD_splitOnChar '.' _))

/-- Normalization maps dot-free names to dot-free names (its fixed
outputs contain no dot, and otherwise it is the identity). -/
theorem not_dot_normalizeType (s : String) (h : '.' ∉ s.data) :
    '.' ∉ (normalizeType s).data := by
  unfold normalizeType
  split_ifs <;> first | decide | exact h

/-- Dropping leading bracket characters does nothing to a bracket-free
list. -/
theorem trimLeftBrackets_eq_self (l : List Char) (h1 : '[' ∉ l) (h2 : ']' ∉ l) :
    trimLeftBrackets l = l := by
  cases l with
  | nil => rfl
  | cons c cs =>
    have hc1 : (c == '[') = false := by
      simp only [beq_eq_false_iff_ne, ne_eq]
      exact fun e => h1 (by simp [e])
    have hc2 : (c == ']') = false := by
      simp only [beq_eq_false_iff_ne, ne_eq]
      exact fun e => h2 (by simp [e])
    simp [trimLeftBrackets, List.dropWhile, hc1, hc2]

/-! Section: claims C7 and C9 -/

/-- C7, counterexample.  The claim says a reference to the standard
timestamp library type is rewritten to a fixed external schema
identifier; the code has no such case: a field of type `time.Time`
(a struct-underlying named type) is mapped, like any other record
reference, to its bare name `Time`. -/
theorem C7_counterexample :
    toProtoFieldTypeName [] (.mk "time.Time" .strct) = "Time" ∧
      ("Time" : String) ≠ "google.protobuf.Timestamp" := by decide

/-- C7, amended.  A field classified as a reference to a named record
(pointer or embedded struct underlying, no enum-map hit) is mapped to the
normalized bare name extracted by `splitNameHelper` — with no special
case of any kind: in particular the result never contains a dot, so it is
never a qualified external schema identifier. -/
theorem C7_amended_bare_name (g : EnumMap) (t : GoType)
    (hrec : t.und = .strct ∨ ∃ e, t.und = .ptr e)
    (hmiss : List.lookup t.str g = none) :
    toProtoFieldTypeName g t = normalizeType (splitNameHelper t) ∧
      '.' ∉ (toProtoFieldTypeName g t).data := by
  have htn : toProtoFieldTypeName g t = normalizeType (splitNameHelper t) := by
    obtain ⟨s, u⟩ := t
    simp only [GoType.str] at hmiss
    rcases hrec with h | ⟨e, h⟩ <;>
      · simp only [GoType.und] at h
        subst h
        simp [toProtoFieldTypeName, GoType.str, GoType.und, hmiss]
  refine ⟨htn, ?_⟩
  rw [htn]
  exact not_dot_normalizeType _ (dot_not_mem_splitNameHelper _)

/-- C7, witness for the amended theorem at a `time.Time` field with an
empty enum map. -/
theorem C7_witness :
    toProtoFieldTypeName [] (.mk "time.Time" .strct)
        = normalizeType (splitNameHelper (.mk "time.Time" .strct)) ∧
      '.' ∉ (toProtoFieldTypeName [] (.mk "time.Time" .strct)).data :=
  C7_amended_bare_name [] _ (Or.inl rfl) rfl

/-- C9, counterexample.  For a named slice type (`type Names []string`,
textual form `pkg.Names`, underlying slice of `string`), `IsRepeated` is
true but the mapped `TypeName` is the sequence's own bare name `Names`,
not the mapped element type `string` — the claim says the element type is
always used. -/
theorem C9_counterexample :
    isRepeated (.mk "pkg.Names" (.slice (.mk "string" (.basic "string")))) = true ∧
    toProtoFieldTypeName [] (.mk "pkg.Names" (.slice (.mk "string" (.basic "string")))) = "Names" ∧
    toProtoFieldTypeName [] (.mk "string" (.basic "string")) = "string" ∧
    ("Names" : String) ≠ "string" := by decide

/-- C9, amended.  `IsRepeated` is true exactly when the field type's
underlying representation is a slice, regardless of element type; and for
an anonymous slice type — one whose textual form is `[]` followed by the
element's own dot-free, bracket-free name — the mapped `TypeName` is the
element's mapped scalar type name.  (A named slice type instead maps to
its own bare name, as the counterexample shows.) -/
theorem C9_amended_repeated :
    (∀ t : GoType, isRepeated t = true ↔ ∃ e, t.und = UnderTy.slice e) ∧
    (∀ (e : List Char) (el : GoType), '.' ∉ e → '[' ∉ e → ']' ∉ e →
      toProtoFieldTypeName [] (.mk (String.mk ('[' :: ']' :: e)) (.slice el))
        = toProtoFieldTypeName [] (.mk (String.mk e) (.basic (String.mk e)))) := by
  constructor
  · intro t
    obtain ⟨s, u⟩ := t
    cases u <;> simp [isRepeated, GoType.und]
  · intro e el h1 h2 h3
    have hdot : '.' ∉ ('[' :: ']' :: e) := by
      intro hm
      rcases List.mem_cons.mp hm with h | hm
      · exact absurd h (by decide)
      rcases List.mem_cons.mp hm with h | hm
      · exact absurd h (by decide)
      · exact h1 hm
    have h4 : splitOnChar '.' ('[' :: ']' :: e) = ['[' :: ']' :: e] :=
      splitOnChar_eq_single _ _ hdot
    have h5 : (("*".data : List Char).isPrefixOf ('[' :: ']' :: e)) = false := by
      simp [List.isPrefixOf]
    have h6 : (("[]".data : List Char).isPrefixOf ('[' :: ']' :: e)) = true := by
      simp [List.isPrefixOf]
    simp [toProtoFieldTypeName, GoType.str, GoType.und, splitNameHelper, h4, lastD,
      trimPfx, h5, h6, trimLeftBrackets_eq_self e h2 h3]

/-- C9, witness for the amended theorem at the anonymous slice type
`[]int`. -/
theorem C9_witness :
    toProtoFieldTypeName [] (.mk (String.mk ['[', ']', 'i', 'n', 't'])
        (.slice (.mk (String.mk ['i', 'n', 't']) (.basic (String.mk ['i', 'n', 't'])))))
      = toProtoFieldTypeName [] (.mk (String.mk ['i', 'n', 't'])
          (.basic (String.mk ['i', 'n', 't']))) :=
  C9_amended_repeated.2 ['i', 'n', 't'] _ (by decide) (by decide) (by decide)

/-! Section: helper lemmas about the collection loop and the final sort -/

/-- Inserting into a sorted list adds one element. -/
theorem length_insertLe (lt : α → α → Bool) (x : α) :
    ∀ l : List α, (insertLe lt x l).length = l.length + 1
  | [] => rfl
  | y :: ys => by
    simp only [insertLe]
    split
    · simp
    · simp [length_insertLe lt x ys]

/-- The final sort preserves the number of collected items. -/
theorem length_sortLt (lt : α → α → Bool) :
    ∀ l : List α, (sortLt lt l).length = l.length
  | [] => rfl
  | x :: xs => by simp [sortLt, length_insertLe, length_sortLt lt xs]

/-- Every gated struct declaration contributes exactly one message to the
accumulator — there is no deduplication step of any kind. -/
theorem processDefs_fst_length (g : EnumMap) (cm : List (String × List String)) (flt : String) :
    ∀ (ds : List Def) (ms : List message) (es : List enumDef) (loc : EnumMap),
      (processDefs g cm flt ds ms es loc).1.length
        = ms.length + (ds.filter (fun d => passesGate flt d && d.isStruct)).length
  | [], ms, es, loc => by simp [processDefs]
  | d :: ds, ms, es, loc => by
    have ih := processDefs_fst_length g cm flt ds
    simp only [processDefs]
    by_cases hg : passesGate flt d
    · rw [if_pos hg]
      cases hu : d.und with
      | strct fs =>
        simp [ih, List.filter_cons, hg, Def.isStruct, hu]
        omega
      | basic nn =>
        cases nn with
        | none => simp [ih, List.filter_cons, hg, Def.isStruct, hu]
        | some s =>
          by_cases hv : (List.lookup d.name cm).getD [] = []
          · simp [hv, ih, List.filter_cons, hg, Def.isStruct, hu]
          · simp [hv, ih, List.filter_cons, hg, Def.isStruct, hu]
      | otherUnder => simp [ih, List.filter_cons, hg, Def.isStruct, hu]
    · rw [if_neg hg]
      simp [ih, List.filter_cons, hg]

/-- Package-level version of the message count. -/
theorem processPkgs_fst_length (g : EnumMap) (flt : String) :
    ∀ (ps : List GoPkg) (ms : List message) (es : List enumDef) (loc : EnumMap),
      (processPkgs g flt ps ms es loc).1.length
        = ms.length
          + ((ps.flatMap GoPkg.defs).filter (fun d => passesGate flt d && d.isStruct)).length
  | [], ms, es, loc => by simp [processPkgs]
  | p :: ps, ms, es, loc => by
    simp only [processPkgs]
    rw [processPkgs_fst_length g flt ps]
    rw [processDefs_fst_length g _ flt]
    simp [List.filter_append]
    omega

/-- The enum accumulator and the run-local enum map never depend on the
`globalEnumMap` state `g` (which the loop only reads, through
`appendMessage`) nor on the message accumulator. -/
theorem processDefs_snd_indep (cm : List (String × List String)) (flt : String) :
    ∀ (ds : List Def) (g g' : EnumMap) (ms ms' : List message)
      (es : List enumDef) (loc : EnumMap),
      (processDefs g cm flt ds ms es loc).2 = (processDefs g' cm flt ds ms' es loc).2
  | [], _, _, _, _, _, _ => rfl
  | d :: ds, g, g', ms, ms', es, loc => by
    have ih := processDefs_snd_indep cm flt ds
    simp only [processDefs]
    by_cases hg : passesGate flt d
    · rw [if_pos hg, if_pos hg]
      cases d.und with
      | strct fs => exact ih g g' _ _ _ _
      | basic nn =>
        cases nn with
        | none => exact ih g g' _ _ _ _
        | some s =>
          dsimp only
          by_cases hv : (List.lookup d.name cm).getD [] = []
          · rw [if_pos hv, if_pos hv]
            exact ih g g' _ _ _ _
          · rw [if_neg hv, if_neg hv]
            exact ih g g' _ _ _ _
      | otherUnder => exact ih g g' _ _ _ _
    · rw [if_neg hg, if_neg hg]
      exact ih g g' _ _ _ _

/-- Package-level version of the independence of the enum results from
the pre-run `globalEnumMap` state. -/
theorem processPkgs_snd_indep (flt : String) :
    ∀ (ps : List GoPkg) (g g' : EnumMap) (ms ms' : List message)
      (es : List enumDef) (loc : EnumMap),
      (processPkgs g flt ps ms es loc).2 = (processPkgs g' flt ps ms' es loc).2
  | [], _, _, _, _, _, _ => rfl
  | p :: ps, g, g', ms, ms', es, loc => by
    simp only [processPkgs]
    have hd := processDefs_snd_indep (gatherConstValues p.files) flt p.defs g g' ms ms' es loc
    have h1 : (processDefs g (gatherConstValues p.files) flt p.defs ms es loc).2.1
        = (processDefs g' (gatherConstValues p.files) flt p.defs ms' es loc).2.1 := by rw [hd]
    have h2 : (processDefs g (gatherConstValues p.files) flt p.defs ms es loc).2.2
        = (processDefs g' (gatherConstValues p.files) flt p.defs ms' es loc).2.2 := by rw [hd]
    rw [h1, h2]
    exact processPkgs_snd_indep flt ps g g' _ _ _ _

/-! Section: claims C4, C6 and C8 -/

/-- C4, counterexample.  Two gated struct declarations named `Foo` in two
loaded packages both produce a message: the output contains two messages
with the same name, so nothing is skipped or merged. -/
theorem C4_counterexample :
    ((getProtobufTypes []
        [⟨[], [⟨"Foo", "a.Foo", true, .strct [⟨"X", true, .mk "int" (.basic "int")⟩]⟩]⟩,
         ⟨[], [⟨"Foo", "b.Foo", true, .strct [⟨"Y", true, .mk "string" (.basic "string")⟩]⟩]⟩]
        "").messages.map message.Name) = ["Foo", "Foo"] := by decide

/-- C4, amended.  The builder performs no deduplication: every gated
struct declaration produces its own message, so the number of messages in
a run's output equals the number of gated struct declarations across all
loaded packages, duplicate bare names included. -/
theorem C4_amended_message_count (g : EnumMap) (pkgs : List GoPkg) (flt : String) :
    (getProtobufTypes g pkgs flt).messages.length
      = ((pkgs.flatMap GoPkg.defs).filter (fun d => passesGate flt d && d.isStruct)).length := by
  simp [getProtobufTypes, length_sortLt, processPkgs_fst_length]

/-- C6, code bug.  Evaluation of a full run at the failing input
(`statusPkg`: an annotated enum `Status` with constants `Active`,
`Inactive`, and an annotated struct `Msg` whose field `State` has type
`Status`), starting from the empty `globalEnumMap`.  The run does
register the enum — the returned map contains `pkg.Status` and the enum
is in the output — but `collectEnumMap` runs only after all messages are
built, so the `State` field was mapped while the registry was still
empty and got the underlying scalar name `"string"` instead of the enum
name. -/
theorem C6_registry_populated_late :
    (getProtobufTypes [] [statusPkg] "").messages
        = [⟨"Msg", [⟨"state", "string", 1, false⟩]⟩] ∧
      (getProtobufTypes [] [statusPkg] "").enums = [⟨"Status", ["Active", "Inactive"]⟩] ∧
      List.lookup "pkg.Status" (getProtobufTypes [] [statusPkg] "").globalMap
        = some ⟨"Status", ["Active", "Inactive"]⟩ := by decide

/-- C8, counterexample.  The map `globalEnumMap` persists across calls:
running the model-building step a second time on the same unchanged
input, with the map state left by the first run, changes the `State`
field's type name from `"string"` to `"Status"`, so the two runs'
message collections differ. -/
theorem C8_counterexample :
    (getProtobufTypes (getProtobufTypes [] [statusPkg] "").globalMap [statusPkg] "").messages
      ≠ (getProtobufTypes [] [statusPkg] "").messages := by decide

/-- C8, amended.  The run is a pure function of the loaded input, the
filter and the pre-run `globalEnumMap` state, and its enum output does
not depend on that carried state at all: two runs on the same input
always produce identical enum collections.  (The message collections of
two back-to-back runs can differ, as the counterexample shows, because
the enum map is carried from one run into the next.) -/
theorem C8_amended_enums_agnostic (g g' : EnumMap) (pkgs : List GoPkg) (flt : String) :
    (getProtobufTypes g pkgs flt).enums = (getProtobufTypes g' pkgs flt).enums := by
  simp only [getProtobufTypes]
  have h := processPkgs_snd_indep flt pkgs g g' [] [] [] []
  have h1 : (processPkgs g flt pkgs [] [] []).2.1 = (processPkgs g' flt pkgs [] [] []).2.1 := by
    rw [h]
  rw [h1]

end Go2Proto
